import Mathlib

/-!
Verification of the retrieve-then-read QA pipeline in this repository.

The development shallowly embeds, in Lean, the numeric loss functions
(`calculate_KL_div_loss`, `calculate_cross_entropy_loss`, `calculate_nll_loss`),
the retriever similarity score, the multi-round retrieval-expansion routine
`inloop_extend_item`, the NaN-loss guard of the training loop, and the
string-normalization / exact-match evaluation utilities of
`qa_baseline/eval_qa.py`.  Tensors of shape `[n, m]` are modelled as functions
`Fin n → Fin m → ℝ`, float tensors as real numbers, and Python lists as Lean
lists.  Theorems at the end settle the frozen claims about these functions.
-/

open Finset

/-! ### Real-valued tensor operations (torch primitives used by the losses) -/

/-- Sum of exponentials of a row, the denominator of `torch.softmax(x, dim=1)`. -/
noncomputable def rowSumExp (m : ℕ) (x : Fin m → ℝ) : ℝ :=
  ∑ j, Real.exp (x j)

/-- Row-wise softmax: `F.softmax(x, dim=1)[j] = exp (x j) / ∑ j', exp (x j')`. -/
noncomputable def softmaxRow (m : ℕ) (x : Fin m → ℝ) (j : Fin m) : ℝ :=
  Real.exp (x j) / rowSumExp m x

/-- Row-wise log-softmax as torch computes it: `x j - log (∑ j', exp (x j'))`. -/
noncomputable def logSoftmaxRow (m : ℕ) (x : Fin m → ℝ) (j : Fin m) : ℝ :=
  x j - Real.log (rowSumExp m x)

/-- `torch.logsumexp(v, dim=1)` for one row: `log (∑ j, exp (v j))`. -/
noncomputable def logsumexpRow (m : ℕ) (v : Fin m → ℝ) : ℝ :=
  Real.log (∑ j, Real.exp (v j))

/-- Models `seq_probs.log()` followed by the in-place replacement
`seq_logprobs[seq_logprobs == float("-inf")] = torch.finfo(dtype).min` from
`calculate_nll_loss`: on nonnegative inputs, `torch.log` returns `-∞` exactly
at `0`, which the source replaces by the smallest finite value `fmin` of the
dtype; elsewhere it is the real logarithm. -/
noncomputable def logClamped (fmin x : ℝ) : ℝ :=
  if x = 0 then fmin else Real.log x

/-- Embedding of `calculate_nll_loss(doc_scores, seq_probs)` from
`qa_passage_combination/train_and_evaluate.py` (identical in
`my_nanoDPR/only_eval.py`):
`-(log_softmax(doc_scores) + clamped_log(seq_probs)).logsumexp(dim=1).mean()`.
`fmin` is the value `torch.finfo(dtype).min`. -/
noncomputable def calculate_nll_loss (n m : ℕ) (fmin : ℝ)
    (doc_scores seq_probs : Fin n → Fin m → ℝ) : ℝ :=
  -(∑ i, logsumexpRow m
      (fun j => logSoftmaxRow m (doc_scores i) j + logClamped fmin (seq_probs i j))) / n

/-- `nn.KLDivLoss(reduction="batchmean")(input, target)` where `input` is
already in log space: `(∑ i j, target i j * (log (target i j) - input i j)) / n`. -/
noncomputable def klDivBatchmean (n m : ℕ) (input target : Fin n → Fin m → ℝ) : ℝ :=
  (∑ i, ∑ j, target i j * (Real.log (target i j) - input i j)) / n

/-- Embedding of `calculate_KL_div_loss(input_logits, target_logits, temperature)`:
KL divergence (batchmean) between `log_softmax(input_logits / temperature[0])`
and `softmax(target_logits / temperature[1])`. -/
noncomputable def calculate_KL_div_loss (n m : ℕ)
    (input_logits target_logits : Fin n → Fin m → ℝ) (temperature : ℝ × ℝ) : ℝ :=
  klDivBatchmean n m
    (fun i j => logSoftmaxRow m (fun j' => input_logits i j' / temperature.1) j)
    (fun i j => softmaxRow m (fun j' => target_logits i j' / temperature.2) j)

/-- `torch.argmax(x)` for one row: the first index attaining the maximum. -/
noncomputable def torchArgmax {m : ℕ} [NeZero m] (x : Fin m → ℝ) : Fin m :=
  letI := Classical.propDecidable
  if h : ({j | ∀ i, x i ≤ x j} : Finset (Fin m)).Nonempty then
    ({j | ∀ i, x i ≤ x j} : Finset (Fin m)).min' h
  else ⟨0, Nat.pos_of_ne_zero (NeZero.ne m)⟩

/-- `nn.CrossEntropyLoss()(input, target)` (mean reduction) on logits, as torch
computes it: mean over rows of `log (∑ j, exp (input i j)) - input i (target i)`. -/
noncomputable def crossEntropyMean (n m : ℕ)
    (input : Fin n → Fin m → ℝ) (target : Fin n → Fin m) : ℝ :=
  (∑ i, (Real.log (rowSumExp m (input i)) - input i (target i))) / n

/-- Embedding of `calculate_cross_entropy_loss(input_logits, target_logits,
temperature)`: cross entropy of `input_logits / temperature[0]` against the
labels `torch.argmax(target_logits, dim=1)` (the raw, unscaled target logits;
`temperature[1]` is not used by the source). -/
noncomputable def calculate_cross_entropy_loss (n m : ℕ) [NeZero m]
    (input_logits target_logits : Fin n → Fin m → ℝ) (temperature : ℝ × ℝ) : ℝ :=
  crossEntropyMean n m
    (fun i j => input_logits i j / temperature.1)
    (fun i => torchArgmax (target_logits i))

/-! ### Retriever similarity score (validate / training loop) -/

/-- Euclidean norm of a vector, `torch.linalg` style. -/
noncomputable def l2norm {d : ℕ} (v : Fin d → ℝ) : ℝ :=
  Real.sqrt (∑ i, v i ^ 2)

/-- The `eps` default of `F.normalize` (`1e-12`). -/
noncomputable def fnormEps : ℝ := 1 / 10 ^ 12

/-- `F.normalize(v, p=2, dim=1)` for one row: `v / max ‖v‖₂ eps` with the
default `eps = 1e-12`. -/
noncomputable def fNormalize {d : ℕ} (v : Fin d → ℝ) : Fin d → ℝ :=
  fun i => v i / max (l2norm v) fnormEps

/-- The retriever similarity computed in `validate` and in the training loop:
`torch.sum(F.normalize(query_embedding) * doc_embedding, dim=1)` for one
query/document pair. -/
noncomputable def retrieverCossim {d : ℕ} (q doc : Fin d → ℝ) : ℝ :=
  ∑ i, fNormalize q i * doc i

/-- Cosine similarity, as the spec's glossary describes the retriever score:
the inner product divided by the product of the Euclidean norms. -/
noncomputable def cosineSimilarity {d : ℕ} (q doc : Fin d → ℝ) : ℝ :=
  (∑ i, q i * doc i) / (l2norm q * l2norm doc)

/-! ### Multi-round retrieval expansion (`inloop_extend_item`, eval mode) -/

/-- One work item of `inloop_extend_item` in
`qa_passage_combination/train_and_evaluate.py`: the tuple
`(query, docid_list, answer)`. -/
structure QAItem where
  query : String
  docid_list : List Int
  answer : List String
deriving DecidableEq

/-- Python `l[i]` with negative-index semantics (`l[-1]` is the last element);
out-of-range access, which raises in Python, is modelled by `dflt`. -/
def pyGet {α : Type} (l : List α) (i : Int) (dflt : α) : α :=
  if i < 0 then l.getD (l.length - (-i).toNat) dflt else l.getD i.toNat dflt

/-- The text sent to the retriever for an item:
`corpus[docid_list[-1]] + " " + query if docid_list[-1] != -1 else query`
(`docid_list` is never empty in the program; Python would raise there, the
model returns the bare query). -/
def retrievalQueryText (corpus : List String) (query : String)
    (docid_list : List Int) : String :=
  match docid_list.getLast? with
  | some last => if last ≠ -1 then pyGet corpus last "" ++ " " ++ query else query
  | none => query

/-- `new_docid_list = docid_list + [docid] if docid_list != [-1] else [docid]`. -/
def childDocidList (docid_list : List Int) (docid : Int) : List Int :=
  if docid_list = [-1] then [docid] else docid_list ++ [docid]

/-- `len(set(l)) == 1` for a nonempty list: all elements are equal. -/
def allEqual : List Int → Bool
  | [] => true
  | x :: xs => xs.all (fun y => y == x)

/-- The items appended for one visited item, in eval mode (where
`topk_positive_ids = []`, so `args.k - len(topk_positive_ids) = k` documents
are requested and `ids_to_exclude = docid_list`): build `new_docid_list` for
each retrieved docid and skip it when
`len(set(new_docid_list)) == 1 and len(new_docid_list) > 1`.
`retrieve` abstracts `retrieve_top_k_docid(text, doc_embeddings,
ret_tokenizer, query_encoder, k, ids_to_exclude)` as a function of the query
text, `k`, and the excluded ids (the other arguments are fixed throughout one
call of `inloop_extend_item`). -/
def itemChildren (retrieve : String → Nat → List Int → List Int)
    (corpus : List String) (k : Nat) (it : QAItem) : List QAItem :=
  let doc_ids := retrieve (retrievalQueryText corpus it.query it.docid_list) k it.docid_list
  (doc_ids.map (fun docid => QAItem.mk it.query (childDocidList it.docid_list docid) it.answer)).filter
    (fun c => !(allEqual c.docid_list && decide (1 < c.docid_list.length)))

/-- The `for i_rnd in range(args.max_round)` loop of `inloop_extend_item`.
Each round sets `this_round_should_visited` to the previous round's
`next_round_should_visited`, resets `cur_visited` to `0`, visits
`data[0], …, data[this_round_should_visited - 1]` (appends during the round
do not move those entries), appends each visited item's children, and passes
the number of appended items to the next round. -/
def expandRounds (retrieve : String → Nat → List Int → List Int)
    (corpus : List String) (k : Nat) :
    Nat → List QAItem → Nat → List QAItem
  | 0, data, _ => data
  | rounds + 1, data, this_round =>
    let newItems := (data.take this_round).flatMap (itemChildren retrieve corpus k)
    expandRounds retrieve corpus k rounds (data ++ newItems) newItems.length

/-- `inloop_extend_item(data, corpus, …, args, mode="eval")` up to the final
conversion of docid lists to document texts: run `args.max_round` rounds of
expansion starting from `data` (with `next_round_should_visited = len(data)`),
then, when `args.empty_doc` is false, keep the items whose docid list is not
`[-1]` and check `num_data_before_remove == num_data_after_remove + 1`
(`none` models the `AssertionError`). -/
def inloopExtendData (retrieve : String → Nat → List Int → List Int)
    (corpus : List String) (k max_round : Nat) (empty_doc : Bool)
    (data : List QAItem) : Option (List QAItem) :=
  let expanded := expandRounds retrieve corpus k max_round data data.length
  if empty_doc then some expanded
  else
    let kept := expanded.filter (fun x => !(x.docid_list == [-1]))
    if expanded.length = kept.length + 1 then some kept else none

/-- The final conversion of `inloop_extend_item`: each item becomes
`(query, [corpus[docid] for docid in docid_list], answer,
doc_embeddings[docid_list[-1]], docid_list)`.  `E` is the type of document
embeddings and `dflt` the out-of-range default of `pyGet`. -/
def convertItem {E : Type} (corpus : List String) (doc_embeddings : List E)
    (dflt : E) (it : QAItem) :
    String × List String × List String × E × List Int :=
  (it.query, it.docid_list.map (fun docid => pyGet corpus docid ""), it.answer,
    pyGet doc_embeddings (it.docid_list.getLastD (-1)) dflt, it.docid_list)

/-- Full embedding of `inloop_extend_item` in eval mode: expansion rounds,
optional removal of the empty-document root with its assertion, and the final
conversion of each item. -/
def inloop_extend_item {E : Type} (retrieve : String → Nat → List Int → List Int)
    (corpus : List String) (doc_embeddings : List E) (dflt : E)
    (k max_round : Nat) (empty_doc : Bool) (data : List QAItem) :
    Option (List (String × List String × List String × E × List Int)) :=
  (inloopExtendData retrieve corpus k max_round empty_doc data).map
    (List.map (convertItem corpus doc_embeddings dflt))

/-! ### The NaN-loss guard of the training loop -/

/-- Abstraction of the float scalar `loss`: finite, `inf`, `-inf`, or NaN. -/
inductive FloatVal where
  | finite (x : ℝ)
  | posInf
  | negInf
  | nan

/-- IEEE comparison `loss == float("inf")` (false for NaN and finite values). -/
def eqPosInf : FloatVal → Bool
  | .posInf => true
  | _ => false

/-- IEEE comparison `loss == float("-inf")`. -/
def eqNegInf : FloatVal → Bool
  | .negInf => true
  | _ => false

/-- `torch.isnan(loss)`. -/
def floatIsNan : FloatVal → Bool
  | .nan => true
  | _ => false

/-- The guard
`loss == float("inf") or loss == float("-inf") or torch.isnan(loss)`. -/
def lossGuard (loss : FloatVal) : Bool :=
  eqPosInf loss || eqNegInf loss || floatIsNan loss

/-- The observable effects of the tail of one training-loop iteration. -/
structure TrainStepOutcome where
  raisedValueError : Bool
  backwardPerformed : Bool
  optimizerStepPerformed : Bool
deriving DecidableEq

/-- The tail of one training-loop iteration of
`qa_passage_combination/train_and_evaluate.py`: if the guard fires, the body
logs and raises `ValueError("Loss is Nan...")`, so neither
`accelerator.backward(loss)` nor `optimizer.step()` runs for that batch;
otherwise it proceeds to the backward pass and the optimizer step. -/
def trainStepTail (loss : FloatVal) : TrainStepOutcome :=
  if lossGuard loss then ⟨true, false, false⟩ else ⟨false, true, true⟩

/-! ### String normalization and exact match (`qa_baseline/eval_qa.py`) -/

/-- Python `str.lower`, character by character (basic latin range). -/
def lowerChar (c : Char) : Char := c.toLower

/-- `string.punctuation`: the 32 ASCII punctuation characters. -/
def punctChars : List Char :=
  "!\"#$%&'()*+,-./:;<=>?@[\\]^_`\x7b|\x7d~".toList

/-- `remove_punc`: keep the characters not in `set(string.punctuation)`. -/
def removePunc (cs : List Char) : List Char :=
  cs.filter (fun c => !punctChars.contains c)

/-- A regex word character (`\w`): alphanumeric or underscore. -/
def isWordChar (c : Char) : Bool := c.isAlphanum || c == '_'

/-- The words removed by `re.sub(r"\b(a|an|the)\b", " ", text)`. -/
def articleWords : List (List Char) := [['a'], ['a', 'n'], ['t', 'h', 'e']]

/-- `remove_articles`: `re.sub(r"\b(a|an|the)\b", " ", text)`.  Because both
ends of every alternative are anchored by `\b`, the pattern matches exactly
the maximal word-character runs equal to `a`, `an` or `the`, and `re.sub`
replaces each match by one space.  The scan below copies non-word characters,
and copies each maximal word run unless it is an article, in which case it
emits `' '`. -/
def removeArticles : List Char → List Char
  | [] => []
  | c :: cs =>
    if isWordChar c then
      (if (c :: cs.takeWhile isWordChar) ∈ articleWords then [' ']
       else c :: cs.takeWhile isWordChar) ++ removeArticles (cs.dropWhile isWordChar)
    else
      c :: removeArticles cs
termination_by cs => cs.length
decreasing_by
  · exact Nat.lt_succ_of_le ((List.dropWhile_sublist isWordChar).length_le)
  · exact Nat.lt_succ_self _

/-- The maximal runs of characters satisfying `p`, in order. -/
def runsBy (p : Char → Bool) : List Char → List (List Char)
  | [] => []
  | c :: cs =>
    if p c then (c :: cs.takeWhile p) :: runsBy p (cs.dropWhile p)
    else runsBy p cs
termination_by cs => cs.length
decreasing_by
  · exact Nat.lt_succ_of_le ((List.dropWhile_sublist p).length_le)
  · exact Nat.lt_succ_self _

unseal removeArticles runsBy

/-- Python `text.split()`: the maximal runs of non-whitespace characters. -/
def pySplit (cs : List Char) : List (List Char) :=
  runsBy (fun c => !c.isWhitespace) cs

/-- `" ".join(ws)`. -/
def joinSpace : List (List Char) → List Char
  | [] => []
  | [w] => w
  | w :: ws => w ++ ' ' :: joinSpace ws

/-- `white_space_fix`: `" ".join(text.split())`. -/
def whiteSpaceFix (cs : List Char) : List Char := joinSpace (pySplit cs)

/-- The maximal word-character runs of a text (the candidate sites of the
`\b(a|an|the)\b` pattern); used to reason about `remove_articles`. -/
def wordRuns (cs : List Char) : List (List Char) := runsBy isWordChar cs

/-- `normalize_answer` on character lists:
`white_space_fix(remove_articles(remove_punc(lower(s))))`. -/
def normalizeChars (cs : List Char) : List Char :=
  whiteSpaceFix (removeArticles (removePunc (cs.map lowerChar)))

/-- `normalize_answer(s)` from `qa_baseline/eval_qa.py`. -/
def normalize_answer (s : String) : String :=
  String.mk (normalizeChars s.data)

/-- `exact_match(prediction, ground_truth)`:
`normalize_answer(prediction) == normalize_answer(ground_truth)`. -/
def exact_match (prediction ground_truth : String) : Bool :=
  normalize_answer prediction == normalize_answer ground_truth

/-- `is_correct = any([exact_match(prediction, answer) for answer in answers])`
from `evaluate_dataset`. -/
def isCorrectPrediction (prediction : String) (answers : List String) : Bool :=
  answers.any (fun answer => exact_match prediction answer)

/-- The counting loop of `evaluate_dataset`: starting from `idx = 0` and
`num_correct = 0`, each example increments `idx` and, when its prediction is
correct, `num_correct`.  Examples are modelled as `(prediction, answers)`
pairs, the model's generation being an input of the model. -/
def emCounts (examples : List (String × List String)) : Nat × Nat :=
  examples.foldl
    (fun acc ex => (acc.1 + 1, if isCorrectPrediction ex.1 ex.2 then acc.2 + 1 else acc.2))
    (0, 0)

/-- The reported exact-match score `em = num_correct / idx * 100`. -/
def emScore (examples : List (String × List String)) : ℚ :=
  ((emCounts examples).2 : ℚ) / ((emCounts examples).1 : ℚ) * 100

/-- Auxiliary predicate for run analysis: the list is empty or its head does
not satisfy `p` (so a run of `p`-characters cannot continue into it). -/
def HeadNotSat (p : Char → Bool) : List Char → Prop
  | [] => True
  | c :: _ => p c = false

/-! ### Concrete fixtures used to exercise the expansion -/

/-- A deterministic retrieval oracle over a six-document corpus: the first `k`
docids (in increasing order) not in the exclusion list.  It returns exactly
the `k` requested distinct docids whenever at least `k` of the six remain. -/
def retrieveFirstFree : String → Nat → List Int → List Int :=
  fun _ k excl =>
    (((List.range 6).map Int.ofNat).filter (fun d => !excl.contains d)).take k

/-- The six-document corpus for the fixture. -/
def corpusSix : List String := ["d0", "d1", "d2", "d3", "d4", "d5"]

/-- Stand-in document embeddings (one value per corpus document). -/
def embedsSix : List Nat := [10, 11, 12, 13, 14, 15]

/-- A retrieval oracle that always honours its exclusion list. -/
def retrieveThreeExcluding : String → Nat → List Int → List Int :=
  fun _ _ excl => ([0, 1, 2] : List Int).filter (fun d => !excl.contains d)

/-! ### Basic facts about the row operations -/

theorem rowSumExp_pos {m : ℕ} (hm : 0 < m) (x : Fin m → ℝ) : 0 < rowSumExp m x := by
  have : Nonempty (Fin m) := ⟨⟨0, hm⟩⟩
  exact Finset.sum_pos (fun j _ => Real.exp_pos (x j)) Finset.univ_nonempty

theorem logSoftmaxRow_eq_log_softmaxRow {m : ℕ} (hm : 0 < m) (x : Fin m → ℝ) (j : Fin m) :
    logSoftmaxRow m x j = Real.log (softmaxRow m x j) := by
  have hS : 0 < rowSumExp m x := rowSumExp_pos hm x
  rw [softmaxRow, Real.log_div (Real.exp_ne_zero _) hS.ne', Real.log_exp, logSoftmaxRow]

theorem exp_logSoftmaxRow {m : ℕ} (hm : 0 < m) (x : Fin m → ℝ) (j : Fin m) :
    Real.exp (logSoftmaxRow m x j) = softmaxRow m x j := by
  have hS : 0 < rowSumExp m x := rowSumExp_pos hm x
  rw [logSoftmaxRow, Real.exp_sub, Real.exp_log hS, softmaxRow]

/-! ### Claims about the loss functions -/

/-- Claim C3: for every `n × m` pair of logit matrices and positive
temperatures `[t_ret, t_lm]`, `calculate_KL_div_loss` returns
`(1/n) * ∑ i j, q i j * (log (q i j) - log (p i j))` where `p` is the row-wise
softmax of `input_logits / t_ret` and `q` the row-wise softmax of
`target_logits / t_lm` (batchmean KL divergence of the retriever distribution
from the language-model distribution). -/
theorem calculate_KL_div_loss_spec (n m : ℕ) (hm : 0 < m)
    (input_logits target_logits : Fin n → Fin m → ℝ)
    (t : ℝ × ℝ) (_ht1 : 0 < t.1) (_ht2 : 0 < t.2) :
    calculate_KL_div_loss n m input_logits target_logits t =
      (1 / n) * ∑ i, ∑ j,
        softmaxRow m (fun j' => target_logits i j' / t.2) j *
          (Real.log (softmaxRow m (fun j' => target_logits i j' / t.2) j) -
           Real.log (softmaxRow m (fun j' => input_logits i j' / t.1) j)) := by
  have h : ∀ (x : Fin m → ℝ) (j : Fin m),
      logSoftmaxRow m x j = Real.log (softmaxRow m x j) :=
    fun x j => logSoftmaxRow_eq_log_softmaxRow hm x j
  simp only [calculate_KL_div_loss, klDivBatchmean, h]
  ring

/-- Witness for C3 at `n = m = 1`, zero logits, unit temperatures. -/
theorem calculate_KL_div_loss_spec_witness :
    (0 : ℕ) < 1 ∧ (0 : ℝ) < (((1 : ℝ), (1 : ℝ)) : ℝ × ℝ).1 ∧
      (0 : ℝ) < (((1 : ℝ), (1 : ℝ)) : ℝ × ℝ).2 ∧
    calculate_KL_div_loss 1 1 (fun _ _ => (0 : ℝ)) (fun _ _ => (0 : ℝ)) (1, 1) =
      (1 / (1 : ℕ)) * ∑ i : Fin 1, ∑ j : Fin 1,
        softmaxRow 1 (fun j' => (fun (_ : Fin 1) (_ : Fin 1) => (0 : ℝ)) i j' / (((1 : ℝ), (1 : ℝ)) : ℝ × ℝ).2) j *
          (Real.log (softmaxRow 1 (fun j' => (fun (_ : Fin 1) (_ : Fin 1) => (0 : ℝ)) i j' / (((1 : ℝ), (1 : ℝ)) : ℝ × ℝ).2) j) -
           Real.log (softmaxRow 1 (fun j' => (fun (_ : Fin 1) (_ : Fin 1) => (0 : ℝ)) i j' / (((1 : ℝ), (1 : ℝ)) : ℝ × ℝ).1) j)) :=
  ⟨Nat.one_pos, one_pos, one_pos,
    calculate_KL_div_loss_spec 1 1 Nat.one_pos _ _ (1, 1) one_pos one_pos⟩

/-- Claim C4: for every `n × m` pair of logit matrices and positive
temperatures, `calculate_cross_entropy_loss` is the mean over rows `i` of
`-log (softmax (input_logits i / t_ret) c_i)`, where the label `c_i` is the
argmax over columns of the raw (un-temperature-scaled) `target_logits i`. -/
theorem calculate_cross_entropy_loss_spec (n m : ℕ) [NeZero m]
    (input_logits target_logits : Fin n → Fin m → ℝ)
    (t : ℝ × ℝ) (_ht1 : 0 < t.1) (_ht2 : 0 < t.2) :
    calculate_cross_entropy_loss n m input_logits target_logits t =
      (1 / n) * ∑ i,
        -Real.log (softmaxRow m (fun j => input_logits i j / t.1)
          (torchArgmax (target_logits i))) := by
  have hm : 0 < m := Nat.pos_of_ne_zero (NeZero.ne m)
  have h : ∀ (x : Fin m → ℝ) (c : Fin m),
      Real.log (rowSumExp m x) - x c = -Real.log (softmaxRow m x c) := by
    intro x c
    rw [← logSoftmaxRow_eq_log_softmaxRow hm, logSoftmaxRow]
    ring
  simp only [calculate_cross_entropy_loss, crossEntropyMean, h]
  ring

/-- Witness for C4 at `n = m = 1`, zero logits, unit temperatures. -/
theorem calculate_cross_entropy_loss_spec_witness :
    (0 : ℝ) < (((1 : ℝ), (1 : ℝ)) : ℝ × ℝ).1 ∧ (0 : ℝ) < (((1 : ℝ), (1 : ℝ)) : ℝ × ℝ).2 ∧
    calculate_cross_entropy_loss 1 1 (fun _ _ => (0 : ℝ)) (fun _ _ => (0 : ℝ)) (1, 1) =
      (1 / (1 : ℕ)) * ∑ i : Fin 1,
        -Real.log (softmaxRow 1 (fun j => (fun (_ : Fin 1) (_ : Fin 1) => (0 : ℝ)) i j / (((1 : ℝ), (1 : ℝ)) : ℝ × ℝ).1)
          (torchArgmax ((fun (_ : Fin 1) (_ : Fin 1) => (0 : ℝ)) i))) :=
  ⟨one_pos, one_pos,
    calculate_cross_entropy_loss_spec 1 1 _ _ (1, 1) one_pos one_pos⟩

/-- Claim C2: for matrices with strictly positive `seq_probs`,
`calculate_nll_loss` equals the RAG-style marginal negative log likelihood
`-(1/n) * ∑ i, log (∑ j, softmax (doc_scores i) j * seq_probs i j)`; and for
nonnegative `seq_probs`, a zero entry contributes with its log term replaced
by the smallest finite value `fmin` of the dtype (i.e. the entry acts as
`exp fmin`) instead of `-∞`. -/
theorem calculate_nll_loss_spec (n m : ℕ) (hm : 0 < m) (fmin : ℝ)
    (doc_scores seq_probs : Fin n → Fin m → ℝ) :
    ((∀ i j, 0 < seq_probs i j) →
      calculate_nll_loss n m fmin doc_scores seq_probs =
        -(1 / n) * ∑ i, Real.log (∑ j, softmaxRow m (doc_scores i) j * seq_probs i j))
    ∧ ((∀ i j, 0 ≤ seq_probs i j) →
      calculate_nll_loss n m fmin doc_scores seq_probs =
        -(1 / n) * ∑ i, Real.log (∑ j, softmaxRow m (doc_scores i) j *
          (if seq_probs i j = 0 then Real.exp fmin else seq_probs i j))) := by
  have key : (∀ i j, 0 ≤ seq_probs i j) →
      calculate_nll_loss n m fmin doc_scores seq_probs =
        -(1 / n) * ∑ i, Real.log (∑ j, softmaxRow m (doc_scores i) j *
          (if seq_probs i j = 0 then Real.exp fmin else seq_probs i j)) := by
    intro h0
    have hexp : ∀ i j,
        Real.exp (logSoftmaxRow m (doc_scores i) j + logClamped fmin (seq_probs i j)) =
          softmaxRow m (doc_scores i) j *
            (if seq_probs i j = 0 then Real.exp fmin else seq_probs i j) := by
      intro i j
      rw [Real.exp_add, exp_logSoftmaxRow hm]
      by_cases hz : seq_probs i j = 0
      · simp [logClamped, hz]
      · simp [logClamped, hz, Real.exp_log (lt_of_le_of_ne (h0 i j) (Ne.symm hz))]
    unfold calculate_nll_loss logsumexpRow
    simp only [hexp]
    ring
  refine ⟨fun hpos => ?_, key⟩
  rw [key (fun i j => (hpos i j).le)]
  congr 1
  refine Finset.sum_congr rfl (fun i _ => ?_)
  congr 1
  exact Finset.sum_congr rfl (fun j _ => by rw [if_neg (hpos i j).ne'])

/-- Witness for C2 at `n = m = 1`, zero scores, `seq_probs = 1`, `fmin = -1`. -/
theorem calculate_nll_loss_spec_witness :
    (0 : ℕ) < 1 ∧ (∀ i j : Fin 1, (0 : ℝ) < (fun (_ : Fin 1) (_ : Fin 1) => (1 : ℝ)) i j) ∧
    calculate_nll_loss 1 1 (-1) (fun _ _ => (0 : ℝ)) (fun _ _ => (1 : ℝ)) =
      -(1 / (1 : ℕ)) * ∑ i : Fin 1,
        Real.log (∑ j : Fin 1, softmaxRow 1 ((fun (_ : Fin 1) (_ : Fin 1) => (0 : ℝ)) i) j *
          (fun (_ : Fin 1) (_ : Fin 1) => (1 : ℝ)) i j) :=
  ⟨Nat.one_pos, fun _ _ => one_pos,
    (calculate_nll_loss_spec 1 1 Nat.one_pos (-1) _ _).1 (fun _ _ => one_pos)⟩

/-! ### Claims about the retriever similarity score -/

/-- Claim C5 counterexample: a query vector with nonzero L2 norm smaller than
the `eps = 1e-12` of `F.normalize` and a unit document vector for which the
similarity computed by the program differs from the cosine similarity
(`F.normalize` divides by `max ‖q‖ eps`, not by `‖q‖`). -/
theorem retrieverCossim_ne_cosineSimilarity :
    l2norm (fun _ : Fin 1 => (5 : ℝ) / 10 ^ 13) ≠ 0 ∧
    l2norm (fun _ : Fin 1 => (1 : ℝ)) = 1 ∧
    retrieverCossim (fun _ : Fin 1 => (5 : ℝ) / 10 ^ 13) (fun _ : Fin 1 => (1 : ℝ)) ≠
      cosineSimilarity (fun _ : Fin 1 => (5 : ℝ) / 10 ^ 13) (fun _ : Fin 1 => (1 : ℝ)) := by
  have hq : l2norm (fun _ : Fin 1 => (5 : ℝ) / 10 ^ 13) = 5 / 10 ^ 13 := by
    unfold l2norm
    rw [Fin.sum_univ_one, Real.sqrt_sq (by norm_num)]
  have hd : l2norm (fun _ : Fin 1 => (1 : ℝ)) = 1 := by
    unfold l2norm
    rw [Fin.sum_univ_one]
    norm_num
  refine ⟨by rw [hq]; norm_num, hd, ?_⟩
  unfold retrieverCossim cosineSimilarity fNormalize
  rw [Fin.sum_univ_one, Fin.sum_univ_one, hq, hd]
  rw [show max ((5 : ℝ) / 10 ^ 13) fnormEps = 1 / 10 ^ 12 by
    unfold fnormEps; rw [max_eq_right (by norm_num)]]
  norm_num

/-- Claim C5 amended: for every query vector whose L2 norm is at least the
`eps = 1e-12` of `F.normalize` and every unit-norm document vector, the score
computed in `validate` and in the training loop equals the cosine similarity. -/
theorem retrieverCossim_eq_cosineSimilarity {d : ℕ} (q doc : Fin d → ℝ)
    (hq : fnormEps ≤ l2norm q) (hdoc : l2norm doc = 1) :
    retrieverCossim q doc = cosineSimilarity q doc := by
  unfold retrieverCossim cosineSimilarity fNormalize
  rw [max_eq_left hq, hdoc, mul_one]
  simp only [div_mul_eq_mul_div]
  rw [← Finset.sum_div]

/-- Witness for the amended C5 at the one-dimensional unit vectors. -/
theorem retrieverCossim_eq_cosineSimilarity_witness :
    fnormEps ≤ l2norm (fun _ : Fin 1 => (1 : ℝ)) ∧
    l2norm (fun _ : Fin 1 => (1 : ℝ)) = 1 ∧
    retrieverCossim (fun _ : Fin 1 => (1 : ℝ)) (fun _ : Fin 1 => (1 : ℝ)) =
      cosineSimilarity (fun _ : Fin 1 => (1 : ℝ)) (fun _ : Fin 1 => (1 : ℝ)) := by
  have hd : l2norm (fun _ : Fin 1 => (1 : ℝ)) = 1 := by
    unfold l2norm
    rw [Fin.sum_univ_one]
    norm_num
  have he : fnormEps ≤ l2norm (fun _ : Fin 1 => (1 : ℝ)) := by
    rw [hd]; unfold fnormEps; norm_num
  exact ⟨he, hd, retrieverCossim_eq_cosineSimilarity _ _ he hd⟩

/-! ### Claim about the NaN-loss guard -/

/-- Claim C6: in the training loop, a NaN, `+inf` or `-inf` loss raises
`ValueError` before the backward pass and the optimizer step; a finite loss
raises no such error and the iteration proceeds. -/
theorem trainStepTail_spec (loss : FloatVal) :
    ((∃ x, loss = FloatVal.finite x) →
      trainStepTail loss = ⟨false, true, true⟩) ∧
    ((loss = FloatVal.nan ∨ loss = FloatVal.posInf ∨ loss = FloatVal.negInf) →
      trainStepTail loss = ⟨true, false, false⟩) := by
  cases loss <;>
    simp [trainStepTail, lossGuard, eqPosInf, eqNegInf, floatIsNan]

/-- Witness for C6 at a finite loss and at a NaN loss. -/
theorem trainStepTail_spec_witness :
    trainStepTail (FloatVal.finite 0) = ⟨false, true, true⟩ ∧
    trainStepTail FloatVal.nan = ⟨true, false, false⟩ :=
  ⟨(trainStepTail_spec (FloatVal.finite 0)).1 ⟨0, rfl⟩,
   (trainStepTail_spec FloatVal.nan).2 (Or.inl rfl)⟩

/-! ### Claims about the retrieval expansion -/

theorem length_eq_filter_not_add_countP {α : Type} (p : α → Bool) (l : List α) :
    l.length = (l.filter (fun x => !p x)).length + l.countP p := by
  induction l with
  | nil => rfl
  | cons x xs ih =>
    simp only [List.length_cons, List.filter_cons, List.countP_cons, ih]
    by_cases hp : p x <;> simp [hp] <;> omega

theorem childDocidList_ne_root (l : List Int) (d : Int) (hd : 0 ≤ d) :
    childDocidList l d ≠ [-1] := by
  unfold childDocidList
  split
  · intro h
    have : d = -1 := by simpa using h
    omega
  · intro h
    have hlen : l.length + 1 = 1 := by simpa using congrArg List.length h
    have hl : l = [] := List.eq_nil_of_length_eq_zero (by omega)
    subst hl
    have : d = -1 := by simpa using h
    omega

theorem mem_itemChildren {retrieve : String → Nat → List Int → List Int}
    {corpus : List String} {k : Nat} {it c : QAItem}
    (hc : c ∈ itemChildren retrieve corpus k it) :
    ∃ d ∈ retrieve (retrievalQueryText corpus it.query it.docid_list) k it.docid_list,
      c = ⟨it.query, childDocidList it.docid_list d, it.answer⟩ := by
  simp only [itemChildren] at hc
  have hc' := List.mem_of_mem_filter hc
  simp only [List.mem_map] at hc'
  obtain ⟨d, hd, rfl⟩ := hc'
  exact ⟨d, hd, rfl⟩

theorem expandRounds_countP_root (retrieve : String → Nat → List Int → List Int)
    (corpus : List String) (k : Nat)
    (hret : ∀ s n excl, ∀ d ∈ retrieve s n excl, (0 : Int) ≤ d) :
    ∀ (rounds : Nat) (data : List QAItem) (this_round : Nat),
      (expandRounds retrieve corpus k rounds data this_round).countP
          (fun x => x.docid_list == [-1]) =
        data.countP (fun x => x.docid_list == [-1]) := by
  intro rounds
  induction rounds with
  | zero => intro data t; rfl
  | succ r ih =>
    intro data t
    simp only [expandRounds]
    rw [ih, List.countP_append]
    have hz : ((data.take t).flatMap (itemChildren retrieve corpus k)).countP
        (fun x => x.docid_list == [-1]) = 0 := by
      rw [List.countP_eq_zero]
      intro c hc
      rw [List.mem_flatMap] at hc
      obtain ⟨it, _, hcc⟩ := hc
      obtain ⟨d, hd, rfl⟩ := mem_itemChildren hcc
      simpa using childDocidList_ne_root it.docid_list d (hret _ _ _ d hd)
    rw [hz]
    omega

/-- Claim C7: in `inloop_extend_item` with `args.empty_doc` false, starting
from the single root item (docid list `[-1]`), if `retrieve_top_k_docid`
returns only non-negative corpus indices then the filter removes exactly one
element — the original root — and the assertion
`num_data_before_remove == num_data_after_remove + 1` never fails. -/
theorem inloop_extend_item_remove_root (retrieve : String → Nat → List Int → List Int)
    (corpus : List String) (k max_round : Nat) (q : String) (ans : List String)
    (hret : ∀ s n excl, ∀ d ∈ retrieve s n excl, (0 : Int) ≤ d) :
    (expandRounds retrieve corpus k max_round [⟨q, [-1], ans⟩] 1).countP
        (fun x => x.docid_list == [-1]) = 1 ∧
    (expandRounds retrieve corpus k max_round [⟨q, [-1], ans⟩] 1).length =
      ((expandRounds retrieve corpus k max_round [⟨q, [-1], ans⟩] 1).filter
        (fun x => !(x.docid_list == [-1]))).length + 1 ∧
    inloopExtendData retrieve corpus k max_round false [⟨q, [-1], ans⟩] =
      some ((expandRounds retrieve corpus k max_round [⟨q, [-1], ans⟩] 1).filter
        (fun x => !(x.docid_list == [-1]))) := by
  have h1 : (expandRounds retrieve corpus k max_round [⟨q, [-1], ans⟩] 1).countP
      (fun x => x.docid_list == [-1]) = 1 := by
    rw [expandRounds_countP_root retrieve corpus k hret]
    rfl
  have h2 : (expandRounds retrieve corpus k max_round [⟨q, [-1], ans⟩] 1).length =
      ((expandRounds retrieve corpus k max_round [⟨q, [-1], ans⟩] 1).filter
        (fun x => !(x.docid_list == [-1]))).length + 1 := by
    rw [length_eq_filter_not_add_countP (fun x => x.docid_list == [-1]), h1]
  refine ⟨h1, h2, ?_⟩
  simp only [inloopExtendData, Bool.false_eq_true, if_false, List.length_singleton]
  rw [if_pos h2]

/-- Witness for C7: the oracle that returns no documents (vacuously
non-negative); the root is expanded to itself and the assertion holds. -/
theorem inloop_extend_item_remove_root_witness :
    (∀ s n excl, ∀ d ∈ (fun (_ : String) (_ : Nat) (_ : List Int) => ([] : List Int)) s n excl,
      (0 : Int) ≤ d) ∧
    inloopExtendData (fun _ _ _ => []) [] 2 3 false [⟨"q", [-1], ["a"]⟩] =
      some ((expandRounds (fun _ _ _ => []) [] 2 3 [⟨"q", [-1], ["a"]⟩] 1).filter
        (fun x => !(x.docid_list == [-1]))) := by
  have hret : ∀ s n excl, ∀ d ∈ (fun (_ : String) (_ : Nat) (_ : List Int) => ([] : List Int)) s n excl,
      (0 : Int) ≤ d := by
    intro s n excl d hd
    simp at hd
  exact ⟨hret,
    (inloop_extend_item_remove_root (fun _ _ _ => []) [] 2 3 "q" ["a"] hret).2.2⟩

theorem childDocidList_nodup (l : List Int) (d : Int) (hl : l.Nodup) (hd : d ∉ l) :
    (childDocidList l d).Nodup := by
  unfold childDocidList
  split
  · simp
  · rw [← List.concat_eq_append]
    exact List.Nodup.concat hd hl

theorem expandRounds_nodup (retrieve : String → Nat → List Int → List Int)
    (corpus : List String) (k : Nat)
    (hret : ∀ s n excl, ∀ d ∈ retrieve s n excl, d ∉ excl) :
    ∀ (rounds : Nat) (data : List QAItem) (this_round : Nat),
      (∀ it ∈ data, it.docid_list.Nodup) →
      ∀ it ∈ expandRounds retrieve corpus k rounds data this_round,
        it.docid_list.Nodup := by
  intro rounds
  induction rounds with
  | zero => intro data t h it hit; exact h it hit
  | succ r ih =>
    intro data t h
    simp only [expandRounds]
    refine ih _ _ (fun it hit => ?_)
    rcases List.mem_append.mp hit with hold | hnew
    · exact h it hold
    · rw [List.mem_flatMap] at hnew
      obtain ⟨parent, hparent, hchild⟩ := hnew
      obtain ⟨d, hd, rfl⟩ := mem_itemChildren hchild
      exact childDocidList_nodup parent.docid_list d
        (h parent (List.mem_of_mem_take hparent)) (hret _ _ _ d hd)

/-- Claim C10: in eval mode of `inloop_extend_item` (no positive documents
injected), starting from the single root item, if every retrieval call
returns only ids outside its exclusion list (the source passes the current
`docid_list` as `ids_to_exclude`), then after every round every combination
has pairwise-distinct docids, and so does every combination in the returned
data for either value of `args.empty_doc`. -/
theorem inloop_extend_item_nodup (retrieve : String → Nat → List Int → List Int)
    (corpus : List String) (k : Nat) (q : String) (ans : List String)
    (hret : ∀ s n excl, ∀ d ∈ retrieve s n excl, d ∉ excl) :
    (∀ max_round, ∀ it ∈ expandRounds retrieve corpus k max_round [⟨q, [-1], ans⟩] 1,
      it.docid_list.Nodup) ∧
    (∀ max_round empty_doc res,
      inloopExtendData retrieve corpus k max_round empty_doc [⟨q, [-1], ans⟩] = some res →
      ∀ it ∈ res, it.docid_list.Nodup) := by
  have hroot : ∀ it ∈ ([⟨q, [-1], ans⟩] : List QAItem), it.docid_list.Nodup := by
    intro it hit
    rw [List.mem_singleton] at hit
    subst hit
    simp
  have hmain : ∀ max_round, ∀ it ∈ expandRounds retrieve corpus k max_round [⟨q, [-1], ans⟩] 1,
      it.docid_list.Nodup :=
    fun max_round => expandRounds_nodup retrieve corpus k hret max_round _ 1 hroot
  refine ⟨hmain, fun max_round empty_doc res hres it hit => ?_⟩
  simp only [inloopExtendData, List.length_singleton] at hres
  by_cases hed : empty_doc
  · rw [if_pos hed] at hres
    obtain rfl := Option.some.inj hres
    exact hmain max_round it hit
  · rw [if_neg hed] at hres
    split at hres
    · obtain rfl := Option.some.inj hres
      exact hmain max_round it (List.mem_of_mem_filter hit)
    · exact absurd hres (by simp)

/-- Witness for C10 with a concrete exclusion-honouring oracle, three rounds. -/
theorem inloop_extend_item_nodup_witness :
    (∀ s n excl, ∀ d ∈ retrieveThreeExcluding s n excl, d ∉ excl) ∧
    (∀ it ∈ expandRounds retrieveThreeExcluding corpusSix 2 3 [⟨"q", [-1], ["a"]⟩] 1,
      it.docid_list.Nodup) := by
  have hret : ∀ s n excl, ∀ d ∈ retrieveThreeExcluding s n excl, d ∉ excl := by
    intro s n excl d hd
    simp only [retrieveThreeExcluding, List.mem_filter] at hd
    simpa using hd.2
  exact ⟨hret,
    (inloop_extend_item_nodup retrieveThreeExcluding corpusSix 2 "q" ["a"] hret).1 3⟩

/-- Claim C1 refutation (the failing input of the round-pointer slip): with
`k = 1`, `max_round = 2`, `args.empty_doc = true`, the single root item, and
a deterministic retrieval oracle that returns exactly the one requested
docid not in the exclusion list on every call, `inloop_extend_item` revisits
`data[0]` — the root — in the second round (because `cur_visited` is reset to
`0` while the visited window starts at the head of `data`), so the returned
candidate list is the root plus the one-document combination `[0]` twice:
no combination of the claimed second expansion round (two documents) exists,
even though the total count `3 = 1 + k + k²` matches the claimed formula. -/
theorem inloop_extend_item_round_bug :
    inloopExtendData retrieveFirstFree corpusSix 1 2 true [⟨"q", [-1], ["a"]⟩] =
      some [⟨"q", [-1], ["a"]⟩, ⟨"q", [0], ["a"]⟩, ⟨"q", [0], ["a"]⟩] ∧
    inloop_extend_item retrieveFirstFree corpusSix embedsSix 0 1 2 true [⟨"q", [-1], ["a"]⟩] =
      some [("q", ["d5"], ["a"], 15, [-1]), ("q", ["d0"], ["a"], 10, [0]),
            ("q", ["d0"], ["a"], 10, [0])] ∧
    (expandRounds retrieveFirstFree corpusSix 1 2 [⟨"q", [-1], ["a"]⟩] 1).all
      (fun it => it.docid_list.length ≤ 1) = true := by
  refine ⟨by decide, by rfl, by decide⟩

/-! ### Claims about evaluate_dataset -/

theorem emCounts_eq (examples : List (String × List String)) :
    emCounts examples =
      (examples.length, examples.countP (fun ex => isCorrectPrediction ex.1 ex.2)) := by
  suffices h : ∀ (a b : Nat),
      examples.foldl
          (fun acc ex => (acc.1 + 1, if isCorrectPrediction ex.1 ex.2 then acc.2 + 1 else acc.2))
          (a, b) =
        (a + examples.length, b + examples.countP (fun ex => isCorrectPrediction ex.1 ex.2)) by
    simpa [emCounts] using h 0 0
  induction examples with
  | nil => intro a b; simp
  | cons x xs ih =>
    intro a b
    simp only [List.foldl_cons, List.countP_cons, List.length_cons, ih]
    by_cases hx : isCorrectPrediction x.1 x.2 <;>
      simp [hx, Prod.ext_iff] <;> omega

/-- Claim C8: in `evaluate_dataset`, an example is counted correct iff some
gold answer in its answer list normalizes to the same string as the
prediction (under `normalize_answer`: lowercasing, ASCII punctuation removal,
removal of the standalone words a/an/the, whitespace collapsing), and the
reported exact-match score is 100 times the number of correct examples
divided by the number of examples processed. -/
theorem evaluate_dataset_em_spec (examples : List (String × List String)) :
    (examples ≠ [] →
      emScore examples =
        100 * (examples.countP (fun ex => isCorrectPrediction ex.1 ex.2) : ℚ) /
          (examples.length : ℚ)) ∧
    (∀ prediction answers, isCorrectPrediction prediction answers = true ↔
      ∃ a ∈ answers, normalize_answer prediction = normalize_answer a) := by
  constructor
  · intro _
    unfold emScore
    rw [emCounts_eq]
    ring
  · intro prediction answers
    simp [isCorrectPrediction, exact_match, List.any_eq_true]

/-- Witness for C8 on a one-example dataset whose prediction "a" matches the
gold answer "an" (both normalize to the empty string). -/
theorem evaluate_dataset_em_spec_witness :
    ([(("a" : String), (["an"] : List String))] ≠ []) ∧
    emScore [("a", ["an"])] =
      100 * ((List.countP (fun ex => isCorrectPrediction ex.1 ex.2)
        [(("a" : String), (["an"] : List String))] : ℚ)) /
        ((List.length [(("a" : String), (["an"] : List String))] : ℚ)) :=
  ⟨by simp, (evaluate_dataset_em_spec [("a", ["an"])]).1 (by simp)⟩

/-! ### Character-level facts for `normalize_answer` -/

theorem char_toLower_ofNat_fixed :
    ∀ n : Nat, n < 91 → 65 ≤ n →
      Char.toLower (Char.ofNat (n + 32)) = Char.ofNat (n + 32) := by decide

theorem char_toLower_idem (c : Char) :
    Char.toLower (Char.toLower c) = Char.toLower c := by
  by_cases h : c.toNat ≥ 65 ∧ c.toNat ≤ 90
  · have h1 : Char.toLower c = Char.ofNat (c.toNat + 32) := by
      unfold Char.toLower
      exact if_pos h
    rw [h1]
    exact char_toLower_ofNat_fixed c.toNat (by omega) h.1
  · have h1 : Char.toLower c = c := by
      unfold Char.toLower
      exact if_neg h
    rw [h1, h1]

theorem lowerChar_idem (c : Char) : lowerChar (lowerChar c) = lowerChar c :=
  char_toLower_idem c

theorem lowerChar_space : lowerChar ' ' = ' ' := by decide

theorem isWordChar_of_isWhitespace {c : Char} (h : c.isWhitespace = true) :
    isWordChar c = false := by
  have h' : c = ' ' ∨ c = '\t' ∨ c = '\r' ∨ c = '\n' := by
    simpa [Char.isWhitespace, or_assoc] using h
  rcases h' with rfl | rfl | rfl | rfl <;> decide

/-! ### Runs of characters: generic lemmas -/

theorem takeWhile_dropWhile_append (p : Char → Bool) (u v : List Char)
    (hv : HeadNotSat p v) :
    (u ++ v).takeWhile p = u.takeWhile p ∧
      (u ++ v).dropWhile p = u.dropWhile p ++ v := by
  induction u with
  | nil =>
    simp only [List.nil_append, List.takeWhile_nil, List.dropWhile_nil]
    cases v with
    | nil => simp
    | cons a w =>
      have ha : p a = false := hv
      simp [List.takeWhile_cons, List.dropWhile_cons, ha]
  | cons c t ih =>
    by_cases hc : p c
    · simp only [List.cons_append, List.takeWhile_cons, List.dropWhile_cons, hc,
        if_true, ite_true]
      exact ⟨by rw [ih.1], by rw [ih.2]⟩
    · simp [List.takeWhile_cons, List.dropWhile_cons, hc]

theorem takeWhile_eq_self_of_all (p : Char → Bool) (t : List Char)
    (h : ∀ c ∈ t, p c = true) :
    t.takeWhile p = t ∧ t.dropWhile p = [] := by
  induction t with
  | nil => simp
  | cons c t ih =>
    have hc : p c = true := h c (List.mem_cons_self c t)
    have ht := ih (fun x hx => h x (List.mem_cons_of_mem c hx))
    simp [List.takeWhile_cons, List.dropWhile_cons, hc, ht.1, ht.2]

theorem headNotSat_dropWhile (p : Char → Bool) (l : List Char) :
    HeadNotSat p (l.dropWhile p) := by
  induction l with
  | nil => trivial
  | cons c t ih =>
    by_cases hc : p c
    · simpa [List.dropWhile_cons, hc] using ih
    · rw [List.dropWhile_cons, if_neg hc]
      exact (Bool.not_eq_true (p c)).mp hc

theorem runsBy_nil (p : Char → Bool) : runsBy p [] = [] := by
  simp [runsBy]

theorem runsBy_cons_pos (p : Char → Bool) (c : Char) (cs : List Char) (hc : p c = true) :
    runsBy p (c :: cs) = (c :: cs.takeWhile p) :: runsBy p (cs.dropWhile p) := by
  rw [runsBy]
  simp [hc]

theorem runsBy_cons_neg (p : Char → Bool) (c : Char) (cs : List Char) (hc : p c = false) :
    runsBy p (c :: cs) = runsBy p cs := by
  rw [runsBy]
  simp [hc]

theorem runsBy_append (p : Char → Bool) :
    ∀ (u v : List Char), HeadNotSat p v →
      runsBy p (u ++ v) = runsBy p u ++ runsBy p v := by
  have main : ∀ (n : Nat) (u : List Char), u.length ≤ n → ∀ v, HeadNotSat p v →
      runsBy p (u ++ v) = runsBy p u ++ runsBy p v := by
    intro n
    induction n with
    | zero =>
      intro u hu v hv
      have hnil : u = [] := List.eq_nil_of_length_eq_zero (Nat.le_zero.mp hu)
      subst hnil
      cases v with
      | nil => simp [runsBy_nil]
      | cons a w =>
        have ha : p a = false := hv
        simp [runsBy_nil]
    | succ n ih =>
      intro u hu v hv
      cases u with
      | nil => simp [runsBy_nil]
      | cons c t =>
        by_cases hc : p c
        · rw [List.cons_append, runsBy_cons_pos p c (t ++ v) hc,
            runsBy_cons_pos p c t hc]
          obtain ⟨htw, hdw⟩ := takeWhile_dropWhile_append p t v hv
          rw [htw, hdw, List.cons_append]
          congr 1
          exact ih (t.dropWhile p)
            (le_trans ((List.dropWhile_sublist p).length_le) (Nat.le_of_succ_le_succ hu)) v hv
        · have hc' : p c = false := (Bool.not_eq_true _).mp hc
          rw [List.cons_append, runsBy_cons_neg p c (t ++ v) hc',
            runsBy_cons_neg p c t hc']
          exact ih t (Nat.le_of_succ_le_succ hu) v hv
  intro u v hv
  exact main u.length u (le_refl _) v hv

theorem runsBy_run_spec (p : Char → Bool) :
    ∀ (cs : List Char), ∀ w ∈ runsBy p cs, w ≠ [] ∧ ∀ c ∈ w, p c = true := by
  have main : ∀ (n : Nat) (cs : List Char), cs.length ≤ n →
      ∀ w ∈ runsBy p cs, w ≠ [] ∧ ∀ c ∈ w, p c = true := by
    intro n
    induction n with
    | zero =>
      intro cs hcs w hw
      have hnil : cs = [] := List.eq_nil_of_length_eq_zero (Nat.le_zero.mp hcs)
      subst hnil
      rw [runsBy_nil] at hw
      cases hw
    | succ n ih =>
      intro cs hcs w hw
      cases cs with
      | nil =>
        rw [runsBy_nil] at hw
        cases hw
      | cons c t =>
        by_cases hc : p c
        · rw [runsBy_cons_pos p c t hc] at hw
          rcases List.mem_cons.mp hw with rfl | hw'
          · refine ⟨by simp, ?_⟩
            intro x hx
            rcases List.mem_cons.mp hx with rfl | hx'
            · exact hc
            · exact List.mem_takeWhile_imp hx'
          · exact ih (t.dropWhile p)
              (le_trans ((List.dropWhile_sublist p).length_le) (Nat.le_of_succ_le_succ hcs)) w hw'
        · rw [runsBy_cons_neg p c t ((Bool.not_eq_true _).mp hc)] at hw
          exact ih t (Nat.le_of_succ_le_succ hcs) w hw
  intro cs
  exact main cs.length cs (le_refl _)

theorem runsBy_eq_nil_iff (p : Char → Bool) :
    ∀ (cs : List Char), runsBy p cs = [] ↔ ∀ c ∈ cs, p c = false := by
  have main : ∀ (n : Nat) (cs : List Char), cs.length ≤ n →
      (runsBy p cs = [] ↔ ∀ c ∈ cs, p c = false) := by
    intro n
    induction n with
    | zero =>
      intro cs hcs
      have hnil : cs = [] := List.eq_nil_of_length_eq_zero (Nat.le_zero.mp hcs)
      subst hnil
      simp [runsBy_nil]
    | succ n ih =>
      intro cs hcs
      cases cs with
      | nil => simp [runsBy_nil]
      | cons c t =>
        by_cases hc : p c
        · rw [runsBy_cons_pos p c t hc]
          constructor
          · intro h
            exact (List.cons_ne_nil _ _ h).elim
          · intro h
            exact absurd hc (by simp [h c (List.mem_cons_self c t)])
        · have hc' : p c = false := (Bool.not_eq_true _).mp hc
          rw [runsBy_cons_neg p c t hc']
          rw [ih t (Nat.le_of_succ_le_succ hcs)]
          constructor
          · intro h x hx
            rcases List.mem_cons.mp hx with rfl | hx'
            · exact hc'
            · exact h x hx'
          · intro h x hx
            exact h x (List.mem_cons_of_mem c hx)
  intro cs
  exact main cs.length cs (le_refl _)

theorem mem_of_mem_runsBy (p : Char → Bool) :
    ∀ (cs : List Char) (w : List Char), w ∈ runsBy p cs → ∀ c ∈ w, c ∈ cs := by
  have main : ∀ (n : Nat) (cs : List Char), cs.length ≤ n →
      ∀ (w : List Char), w ∈ runsBy p cs → ∀ c ∈ w, c ∈ cs := by
    intro n
    induction n with
    | zero =>
      intro cs hcs w hw
      have hnil : cs = [] := List.eq_nil_of_length_eq_zero (Nat.le_zero.mp hcs)
      subst hnil
      rw [runsBy_nil] at hw
      cases hw
    | succ n ih =>
      intro cs hcs w hw c hc
      cases cs with
      | nil =>
        rw [runsBy_nil] at hw
        cases hw
      | cons a t =>
        by_cases ha : p a
        · rw [runsBy_cons_pos p a t ha] at hw
          rcases List.mem_cons.mp hw with rfl | hw'
          · rcases List.mem_cons.mp hc with rfl | hc'
            · exact List.mem_cons_self _ _
            · exact List.mem_cons_of_mem a (List.takeWhile_subset _ hc')
          · exact List.mem_cons_of_mem a
              (List.dropWhile_subset _
                (ih (t.dropWhile p)
                  (le_trans ((List.dropWhile_sublist p).length_le)
                    (Nat.le_of_succ_le_succ hcs)) w hw' c hc))
        · rw [runsBy_cons_neg p a t ((Bool.not_eq_true _).mp ha)] at hw
          exact List.mem_cons_of_mem a (ih t (Nat.le_of_succ_le_succ hcs) w hw c hc)
  intro cs
  exact main cs.length cs (le_refl _)

theorem runsBy_all_pos (p : Char → Bool) (c : Char) (cs : List Char)
    (h : ∀ x ∈ c :: cs, p x = true) : runsBy p (c :: cs) = [c :: cs] := by
  obtain ⟨htw, hdw⟩ :=
    takeWhile_eq_self_of_all p cs (fun x hx => h x (List.mem_cons_of_mem c hx))
  rw [runsBy_cons_pos p c cs (h c (List.mem_cons_self c cs)), htw, hdw, runsBy_nil]

theorem joinSpace_cons (w : List Char) (ws : List (List Char)) (h : ws ≠ []) :
    joinSpace (w :: ws) = w ++ ' ' :: joinSpace ws := by
  cases ws with
  | nil => exact absurd rfl h
  | cons w' ws' => rfl

theorem runsBy_joinSpace (p : Char → Bool) (hsp : p ' ' = false) :
    ∀ ws : List (List Char), (∀ w ∈ ws, w ≠ [] ∧ ∀ c ∈ w, p c = true) →
      runsBy p (joinSpace ws) = ws := by
  intro ws
  induction ws with
  | nil =>
    intro _
    exact runsBy_nil p
  | cons w ws ih =>
    intro h
    obtain ⟨hw_ne, hw_all⟩ := h w (List.mem_cons_self w ws)
    cases ws with
    | nil =>
      cases w with
      | nil => exact absurd rfl hw_ne
      | cons c t =>
        exact runsBy_all_pos p c t hw_all
    | cons w' ws' =>
      rw [joinSpace_cons w (w' :: ws') (List.cons_ne_nil w' ws'),
        runsBy_append p w (' ' :: joinSpace (w' :: ws')) hsp,
        runsBy_cons_neg p ' ' _ hsp,
        ih (fun x hx => h x (List.mem_cons_of_mem w hx))]
      cases w with
      | nil => exact absurd rfl hw_ne
      | cons c t =>
        rw [runsBy_all_pos p c t hw_all]
        rfl

theorem pySplit_whiteSpaceFix (cs : List Char) :
    pySplit (whiteSpaceFix cs) = pySplit cs := by
  unfold whiteSpaceFix pySplit
  exact runsBy_joinSpace _ (by decide) _ (runsBy_run_spec _ cs)

theorem whiteSpaceFix_idem (cs : List Char) :
    whiteSpaceFix (whiteSpaceFix cs) = whiteSpaceFix cs := by
  show joinSpace (pySplit (whiteSpaceFix cs)) = whiteSpaceFix cs
  rw [pySplit_whiteSpaceFix]
  rfl

theorem headNotSat_word_of_headNotSat_nonWS :
    ∀ v : List Char, HeadNotSat (fun c => !c.isWhitespace) v → HeadNotSat isWordChar v := by
  intro v hv
  cases v with
  | nil => trivial
  | cons a w =>
    have ha : (!a.isWhitespace) = false := hv
    exact isWordChar_of_isWhitespace (by simpa using ha)

theorem whiteSpaceFix_nil : whiteSpaceFix [] = [] := by
  unfold whiteSpaceFix pySplit
  rw [runsBy_nil]
  rfl

theorem whiteSpaceFix_cons_ws (c : Char) (cs : List Char) (hc : c.isWhitespace = true) :
    whiteSpaceFix (c :: cs) = whiteSpaceFix cs := by
  unfold whiteSpaceFix pySplit
  rw [runsBy_cons_neg _ c cs (by simp [hc])]

theorem wordRuns_whiteSpaceFix :
    ∀ cs : List Char, wordRuns (whiteSpaceFix cs) = wordRuns cs := by
  have main : ∀ (n : Nat) (cs : List Char), cs.length ≤ n →
      wordRuns (whiteSpaceFix cs) = wordRuns cs := by
    intro n
    induction n with
    | zero =>
      intro cs hcs
      have hnil : cs = [] := List.eq_nil_of_length_eq_zero (Nat.le_zero.mp hcs)
      subst hnil
      rw [whiteSpaceFix_nil]
    | succ n ih =>
      intro cs hcs
      cases cs with
      | nil => rw [whiteSpaceFix_nil]
      | cons c cs' =>
        by_cases hws : c.isWhitespace
        · rw [whiteSpaceFix_cons_ws c cs' hws, ih cs' (Nat.le_of_succ_le_succ hcs)]
          exact (runsBy_cons_neg _ c cs' (isWordChar_of_isWhitespace hws)).symm
        · have hnw : (!c.isWhitespace) = true := by simp [hws]
          have hsplit_cons : pySplit (c :: cs') =
              (c :: cs'.takeWhile (fun x => !x.isWhitespace)) ::
                pySplit (cs'.dropWhile (fun x => !x.isWhitespace)) :=
            runsBy_cons_pos _ c cs' hnw
          have hrest_head : HeadNotSat isWordChar (cs'.dropWhile (fun x => !x.isWhitespace)) :=
            headNotSat_word_of_headNotSat_nonWS _ (headNotSat_dropWhile _ cs')
          have hdecomp : c :: cs' =
              (c :: cs'.takeWhile (fun x => !x.isWhitespace)) ++
                cs'.dropWhile (fun x => !x.isWhitespace) := by
            rw [List.cons_append, List.takeWhile_append_dropWhile]
          have hruns_cs : wordRuns (c :: cs') =
              wordRuns (c :: cs'.takeWhile (fun x => !x.isWhitespace)) ++
                wordRuns (cs'.dropWhile (fun x => !x.isWhitespace)) := by
            conv_lhs => rw [hdecomp]
            exact runsBy_append isWordChar _ _ hrest_head
          cases hsplit : pySplit (cs'.dropWhile (fun x => !x.isWhitespace)) with
          | nil =>
            have hwsf : whiteSpaceFix (c :: cs') =
                c :: cs'.takeWhile (fun x => !x.isWhitespace) := by
              unfold whiteSpaceFix
              rw [hsplit_cons, hsplit]
              rfl
            have hrest_nil : wordRuns (cs'.dropWhile (fun x => !x.isWhitespace)) = [] := by
              rw [wordRuns, runsBy_eq_nil_iff]
              intro x hx
              have hxw : (!x.isWhitespace) = false :=
                (runsBy_eq_nil_iff _ _).mp hsplit x hx
              exact isWordChar_of_isWhitespace (by simpa using hxw)
            rw [hwsf, hruns_cs, hrest_nil, List.append_nil]
          | cons w' ws' =>
            have hwsf : whiteSpaceFix (c :: cs') =
                (c :: cs'.takeWhile (fun x => !x.isWhitespace)) ++
                  ' ' :: whiteSpaceFix (cs'.dropWhile (fun x => !x.isWhitespace)) := by
              unfold whiteSpaceFix
              rw [hsplit_cons, joinSpace_cons _ _ (by rw [hsplit]; exact List.cons_ne_nil w' ws')]
            have h1 : wordRuns ((c :: cs'.takeWhile (fun x => !x.isWhitespace)) ++
                ' ' :: whiteSpaceFix (cs'.dropWhile (fun x => !x.isWhitespace))) =
                wordRuns (c :: cs'.takeWhile (fun x => !x.isWhitespace)) ++
                  wordRuns (' ' :: whiteSpaceFix (cs'.dropWhile (fun x => !x.isWhitespace))) :=
              runsBy_append isWordChar _ _ (by decide : isWordChar ' ' = false)
            have h2 : wordRuns (' ' :: whiteSpaceFix (cs'.dropWhile (fun x => !x.isWhitespace))) =
                wordRuns (whiteSpaceFix (cs'.dropWhile (fun x => !x.isWhitespace))) :=
              runsBy_cons_neg isWordChar ' ' _ (by decide)
            rw [hwsf, hruns_cs, h1, h2]
            congr 1
            exact ih (cs'.dropWhile (fun x => !x.isWhitespace))
              (le_trans ((List.dropWhile_sublist _).length_le) (Nat.le_of_succ_le_succ hcs))
  intro cs
  exact main cs.length cs (le_refl _)

theorem removeArticles_nil : removeArticles [] = [] := by
  simp [removeArticles]

theorem removeArticles_cons_pos (c : Char) (cs : List Char) (hc : isWordChar c = true) :
    removeArticles (c :: cs) =
      (if (c :: cs.takeWhile isWordChar) ∈ articleWords then [' ']
       else c :: cs.takeWhile isWordChar) ++ removeArticles (cs.dropWhile isWordChar) := by
  rw [removeArticles]
  simp [hc]

theorem removeArticles_cons_neg (c : Char) (cs : List Char) (hc : isWordChar c = false) :
    removeArticles (c :: cs) = c :: removeArticles cs := by
  rw [removeArticles]
  simp [hc]

theorem headNotSat_removeArticles (v : List Char) (hv : HeadNotSat isWordChar v) :
    HeadNotSat isWordChar (removeArticles v) := by
  cases v with
  | nil =>
    rw [removeArticles_nil]
    trivial
  | cons a w =>
    have ha : isWordChar a = false := hv
    rw [removeArticles_cons_neg a w ha]
    exact ha

theorem removeArticles_eq_self :
    ∀ cs : List Char, (∀ r ∈ wordRuns cs, r ∉ articleWords) → removeArticles cs = cs := by
  have main : ∀ (n : Nat) (cs : List Char), cs.length ≤ n →
      (∀ r ∈ wordRuns cs, r ∉ articleWords) → removeArticles cs = cs := by
    intro n
    induction n with
    | zero =>
      intro cs hcs _
      have hnil : cs = [] := List.eq_nil_of_length_eq_zero (Nat.le_zero.mp hcs)
      subst hnil
      exact removeArticles_nil
    | succ n ih =>
      intro cs hcs h
      cases cs with
      | nil => exact removeArticles_nil
      | cons c cs' =>
        by_cases hc : isWordChar c
        · have hruns : wordRuns (c :: cs') =
              (c :: cs'.takeWhile isWordChar) :: wordRuns (cs'.dropWhile isWordChar) :=
            runsBy_cons_pos isWordChar c cs' hc
          have hrnotart : (c :: cs'.takeWhile isWordChar) ∉ articleWords := by
            refine h _ ?_
            rw [hruns]
            exact List.mem_cons_self _ _
          rw [removeArticles_cons_pos c cs' hc, if_neg hrnotart]
          rw [ih (cs'.dropWhile isWordChar)
            (le_trans ((List.dropWhile_sublist _).length_le) (Nat.le_of_succ_le_succ hcs))
            (fun r hr => h r (by rw [hruns]; exact List.mem_cons_of_mem _ hr))]
          rw [List.cons_append, List.takeWhile_append_dropWhile]
        · have hc' : isWordChar c = false := (Bool.not_eq_true _).mp hc
          rw [removeArticles_cons_neg c cs' hc']
          have hruns : wordRuns (c :: cs') = wordRuns cs' :=
            runsBy_cons_neg isWordChar c cs' hc'
          rw [ih cs' (Nat.le_of_succ_le_succ hcs) (fun r hr => h r (by rw [hruns]; exact hr))]
  intro cs
  exact main cs.length cs (le_refl _)

theorem wordRuns_removeArticles :
    ∀ cs : List Char, ∀ r ∈ wordRuns (removeArticles cs), r ∉ articleWords := by
  have main : ∀ (n : Nat) (cs : List Char), cs.length ≤ n →
      ∀ r ∈ wordRuns (removeArticles cs), r ∉ articleWords := by
    intro n
    induction n with
    | zero =>
      intro cs hcs r hr
      have hnil : cs = [] := List.eq_nil_of_length_eq_zero (Nat.le_zero.mp hcs)
      subst hnil
      rw [removeArticles_nil] at hr
      rw [wordRuns, runsBy_nil] at hr
      cases hr
    | succ n ih =>
      intro cs hcs r hr
      cases cs with
      | nil =>
        rw [removeArticles_nil] at hr
        rw [wordRuns, runsBy_nil] at hr
        cases hr
      | cons c cs' =>
        by_cases hc : isWordChar c
        · have hrest : HeadNotSat isWordChar (removeArticles (cs'.dropWhile isWordChar)) :=
            headNotSat_removeArticles _ (headNotSat_dropWhile isWordChar cs')
          have hlen : (cs'.dropWhile isWordChar).length ≤ n :=
            le_trans ((List.dropWhile_sublist _).length_le) (Nat.le_of_succ_le_succ hcs)
          rw [removeArticles_cons_pos c cs' hc] at hr
          by_cases hart : (c :: cs'.takeWhile isWordChar) ∈ articleWords
          · rw [if_pos hart] at hr
            have hr' : r ∈ wordRuns (' ' :: removeArticles (cs'.dropWhile isWordChar)) := hr
            rw [wordRuns, runsBy_cons_neg isWordChar ' ' _ (by decide)] at hr'
            exact ih _ hlen r hr'
          · rw [if_neg hart] at hr
            have hsplit : wordRuns ((c :: cs'.takeWhile isWordChar) ++
                removeArticles (cs'.dropWhile isWordChar)) =
                wordRuns (c :: cs'.takeWhile isWordChar) ++
                  wordRuns (removeArticles (cs'.dropWhile isWordChar)) :=
              runsBy_append isWordChar _ _ hrest
            rw [hsplit] at hr
            rcases List.mem_append.mp hr with hr1 | hr2
            · have hall : ∀ x ∈ c :: cs'.takeWhile isWordChar, isWordChar x = true := by
                intro x hx
                rcases List.mem_cons.mp hx with rfl | hx'
                · exact hc
                · exact List.mem_takeWhile_imp hx'
              rw [wordRuns, runsBy_all_pos isWordChar c _ hall] at hr1
              rcases List.mem_singleton.mp hr1 with rfl
              exact hart
            · exact ih _ hlen r hr2
        · have hc' : isWordChar c = false := (Bool.not_eq_true _).mp hc
          rw [removeArticles_cons_neg c cs' hc'] at hr
          rw [wordRuns, runsBy_cons_neg isWordChar c _ hc'] at hr
          exact ih cs' (Nat.le_of_succ_le_succ hcs) r hr
  intro cs
  exact main cs.length cs (le_refl _)

theorem mem_removeArticles :
    ∀ (cs : List Char) (c : Char), c ∈ removeArticles cs → c ∈ cs ∨ c = ' ' := by
  have main : ∀ (n : Nat) (cs : List Char), cs.length ≤ n →
      ∀ c, c ∈ removeArticles cs → c ∈ cs ∨ c = ' ' := by
    intro n
    induction n with
    | zero =>
      intro cs hcs c hc
      have hnil : cs = [] := List.eq_nil_of_length_eq_zero (Nat.le_zero.mp hcs)
      subst hnil
      rw [removeArticles_nil] at hc
      cases hc
    | succ n ih =>
      intro cs hcs c hc
      cases cs with
      | nil =>
        rw [removeArticles_nil] at hc
        cases hc
      | cons a cs' =>
        by_cases ha : isWordChar a
        · rw [removeArticles_cons_pos a cs' ha] at hc
          have hlen : (cs'.dropWhile isWordChar).length ≤ n :=
            le_trans ((List.dropWhile_sublist _).length_le) (Nat.le_of_succ_le_succ hcs)
          rcases List.mem_append.mp hc with hc1 | hc2
          · by_cases hart : (a :: cs'.takeWhile isWordChar) ∈ articleWords
            · rw [if_pos hart] at hc1
              right
              exact List.mem_singleton.mp hc1
            · rw [if_neg hart] at hc1
              left
              rcases List.mem_cons.mp hc1 with rfl | hc1'
              · exact List.mem_cons_self _ _
              · exact List.mem_cons_of_mem a (List.takeWhile_subset _ hc1')
          · rcases ih _ hlen c hc2 with hmem | hsp
            · exact Or.inl (List.mem_cons_of_mem a (List.dropWhile_subset _ hmem))
            · exact Or.inr hsp
        · rw [removeArticles_cons_neg a cs' ((Bool.not_eq_true _).mp ha)] at hc
          rcases List.mem_cons.mp hc with rfl | hc'
          · exact Or.inl (List.mem_cons_self _ _)
          · rcases ih cs' (Nat.le_of_succ_le_succ hcs) c hc' with hmem | hsp
            · exact Or.inl (List.mem_cons_of_mem a hmem)
            · exact Or.inr hsp
  intro cs
  exact main cs.length cs (le_refl _)

theorem mem_joinSpace :
    ∀ (ws : List (List Char)) (c : Char), c ∈ joinSpace ws → (∃ w ∈ ws, c ∈ w) ∨ c = ' ' := by
  intro ws
  induction ws with
  | nil =>
    intro c hc
    cases hc
  | cons w ws ih =>
    intro c hc
    cases ws with
    | nil =>
      exact Or.inl ⟨w, List.mem_singleton_self w, hc⟩
    | cons w' ws' =>
      rw [joinSpace_cons w (w' :: ws') (List.cons_ne_nil w' ws')] at hc
      rcases List.mem_append.mp hc with hc1 | hc2
      · exact Or.inl ⟨w, List.mem_cons_self _ _, hc1⟩
      · rcases List.mem_cons.mp hc2 with rfl | hc3
        · exact Or.inr rfl
        · rcases ih c hc3 with ⟨w'', hw'', hcw⟩ | hsp
          · exact Or.inl ⟨w'', List.mem_cons_of_mem w hw'', hcw⟩
          · exact Or.inr hsp

theorem mem_whiteSpaceFix (cs : List Char) (c : Char) (hc : c ∈ whiteSpaceFix cs) :
    c ∈ cs ∨ c = ' ' := by
  rcases mem_joinSpace _ c hc with ⟨w, hw, hcw⟩ | hsp
  · exact Or.inl (mem_of_mem_runsBy _ cs w hw c hcw)
  · exact Or.inr hsp

theorem map_lowerChar_eq_self (l : List Char) (h : ∀ c ∈ l, lowerChar c = c) :
    l.map lowerChar = l := by
  induction l with
  | nil => rfl
  | cons c t ih =>
    rw [List.map_cons, h c (List.mem_cons_self c t),
      ih (fun x hx => h x (List.mem_cons_of_mem c hx))]

theorem normalizeChars_char_spec (cs : List Char) (c : Char)
    (hc : c ∈ normalizeChars cs) :
    lowerChar c = c ∧ (!punctChars.contains c) = true := by
  rcases mem_whiteSpaceFix _ c hc with h1 | rfl
  · rcases mem_removeArticles _ c h1 with h2 | rfl
    · have h2' : c ∈ (cs.map lowerChar).filter (fun x => !punctChars.contains x) := h2
      have hm : c ∈ cs.map lowerChar := List.mem_of_mem_filter h2'
      have hp : (!punctChars.contains c) = true :=
        List.of_mem_filter (p := fun x => !punctChars.contains x) h2'
      rcases List.mem_map.mp hm with ⟨c₀, _, rfl⟩
      exact ⟨lowerChar_idem c₀, hp⟩
    · exact ⟨lowerChar_space, by decide⟩
  · exact ⟨lowerChar_space, by decide⟩

theorem normalizeChars_idem (cs : List Char) :
    normalizeChars (normalizeChars cs) = normalizeChars cs := by
  have hchars : ∀ c ∈ normalizeChars cs,
      lowerChar c = c ∧ (!punctChars.contains c) = true :=
    fun c hc => normalizeChars_char_spec cs c hc
  have h1 : (normalizeChars cs).map lowerChar = normalizeChars cs :=
    map_lowerChar_eq_self _ (fun c hc => (hchars c hc).1)
  have h2 : removePunc (normalizeChars cs) = normalizeChars cs :=
    List.filter_eq_self.mpr (fun c hc => (hchars c hc).2)
  have h3 : removeArticles (normalizeChars cs) = normalizeChars cs := by
    apply removeArticles_eq_self
    intro r hr
    have hwr : wordRuns (normalizeChars cs) =
        wordRuns (removeArticles (removePunc (cs.map lowerChar))) :=
      wordRuns_whiteSpaceFix _
    rw [hwr] at hr
    exact wordRuns_removeArticles _ r hr
  have h4 : whiteSpaceFix (normalizeChars cs) = normalizeChars cs :=
    whiteSpaceFix_idem _
  show whiteSpaceFix (removeArticles (removePunc ((normalizeChars cs).map lowerChar))) =
    normalizeChars cs
  rw [h1, h2, h3, h4]

/-- Claim C9: `normalize_answer` is idempotent, and `exact_match` (equality of
normalized strings) is an equivalence relation: reflexive, symmetric, and
transitive. -/
theorem normalize_answer_idem_equiv :
    (∀ s : String, normalize_answer (normalize_answer s) = normalize_answer s) ∧
    (∀ a : String, exact_match a a = true) ∧
    (∀ a b : String, exact_match a b = exact_match b a) ∧
    (∀ a b c : String, exact_match a b = true → exact_match b c = true →
      exact_match a c = true) := by
  refine ⟨fun s => congrArg String.mk (normalizeChars_idem s.data), ?_, ?_, ?_⟩
  · intro a
    simp [exact_match]
  · intro a b
    by_cases h : normalize_answer a = normalize_answer b
    · simp [exact_match, h]
    · have h' : normalize_answer b ≠ normalize_answer a := fun hh => h hh.symm
      simp [exact_match, h, h']
  · intro a b c h1 h2
    rw [exact_match, beq_iff_eq] at h1 h2 ⊢
    rw [h1, h2]

/-- Witness for C9: idempotence at a concrete string and transitivity at the
three article words, which all normalize to the empty string. -/
theorem normalize_answer_idem_equiv_witness :
    normalize_answer (normalize_answer "The  Answer!") = normalize_answer "The  Answer!" ∧
    exact_match "a" "an" = true ∧ exact_match "an" "the" = true ∧
    exact_match "a" "the" = true :=
  ⟨normalize_answer_idem_equiv.1 "The  Answer!", by decide, by decide,
   normalize_answer_idem_equiv.2.2.2 "a" "an" "the" (by decide) (by decide)⟩
